import Mathlib

/-!
# foldcluster: `src/risk.cpp`

A shallow embedding of the four functions of `risk.cpp` (`risk_cpp`,
`rand_index`, `risk_matrix_cpp`, `minimize_risk_cpp`) and the properties
proved about them.

Modelling conventions.

* A finite `double` is a rational (`ℚ`).  The four functions are embedded in
  exact arithmetic: their sums and products are not rounded.  Where rounding
  decides a property, `risk_cpp_fl` is `risk_cpp` with every operation rounded
  to a `double` by `fl`.
  The only non-finite values the program can produce from finite inputs come
  from the final division of `rand_index`; they are the constructors `inf`
  and `nan` of `Double`.
* `arma::vec` is a list of its elements (`n_rows` is the length);
  `arma::mat` is a shape together with an element function, so a matrix is
  always rectangular.
* Every element access `x(i)`, `X(i, j)`, `X.row(m)` is bounds-checked, as
  Armadillo does in its default build, and a failed check is the error
  `index_out_of_bounds`.  Errors propagate as C++ exceptions do: the `Except`
  monad.
* `int n = c.n_rows` is exact: sizes are below `2^31`.
-/

namespace FoldCluster

/-- The two run-time errors Armadillo raises in this program. -/
inductive ArmaError where
  | index_out_of_bounds
  | no_elements
  deriving DecidableEq

/-- Result of a `double` division: a finite value, an infinity, or NaN. -/
inductive Double where
  | finite (q : ℚ)
  | inf
  | nan
  deriving DecidableEq

/-- IEEE division `a / b` of two finite values. -/
def Double.div (a b : ℚ) : Double :=
  if b = 0 then (if a = 0 then Double.nan else Double.inf) else Double.finite (a / b)

/-- The type `arma::vec`: a column vector of doubles. -/
abbrev Vec := List ℚ

/-- The type `arma::mat`: `n_rows × n_cols` doubles. -/
structure Mat where
  n_rows : Nat
  n_cols : Nat
  elem : Nat → Nat → ℚ

/-- Read access `c(i)` on a vector, bounds-checked. -/
def Vec.at (c : Vec) (i : Nat) : Except ArmaError ℚ :=
  match c.get? i with
  | some v => .ok v
  | none => .error .index_out_of_bounds

/-- Write access `c(i) = v` on a vector, bounds-checked. -/
def Vec.setAt (c : Vec) (i : Nat) (v : ℚ) : Except ArmaError Vec :=
  if i < c.length then .ok (c.set i v) else .error .index_out_of_bounds

/-- The vector `arma::zeros(n)`. -/
def Vec.zeros (n : Nat) : Vec := List.replicate n 0

/-- Read access `M(i, j)` on a matrix, bounds-checked. -/
def Mat.at (M : Mat) (i j : Nat) : Except ArmaError ℚ :=
  if i < M.n_rows ∧ j < M.n_cols then .ok (M.elem i j) else .error .index_out_of_bounds

/-- Write access `M(i, j) = v` on a matrix, bounds-checked. -/
def Mat.setAt (M : Mat) (i j : Nat) (v : ℚ) : Except ArmaError Mat :=
  if i < M.n_rows ∧ j < M.n_cols then
    .ok { M with elem := fun a b => if a = i ∧ b = j then v else M.elem a b }
  else .error .index_out_of_bounds

/-- The matrix `arma::zeros(r, c)`. -/
def Mat.zeros (r c : Nat) : Mat := ⟨r, c, fun _ _ => 0⟩

/-- The sum `arma::accu(M)` of all elements, column by column. -/
def Mat.accu (M : Mat) : ℚ :=
  ((List.range M.n_cols).map fun j => ((List.range M.n_rows).map fun i => M.elem i j).sum).sum

/-- The elements of row `m` of a matrix, as a column vector. -/
def Mat.rowVec (M : Mat) (m : Nat) : Vec := (List.range M.n_cols).map fun j => M.elem m j

/-- The expression `M.row(m).t()`: row `m` as a column vector, bounds-checked. -/
def Mat.rowT (M : Mat) (m : Nat) : Except ArmaError Vec :=
  if m < M.n_rows then .ok (M.rowVec m) else .error .index_out_of_bounds

/-- A matrix given by the list of its rows, each of length `n_cols`. -/
def Mat.ofRows (n_cols : Nat) (rows : List (List ℚ)) : Mat :=
  ⟨rows.length, n_cols, fun i j => (rows.getD i []).getD j 0⟩

/-- Loop `for (int i = lo; i < lo + k; i++) body`, the state threaded through. -/
def forLoop {σ : Type} (body : Nat → σ → Except ArmaError σ) :
    Nat → Nat → σ → Except ArmaError σ
  | 0, _, s => .ok s
  | k + 1, i, s => do
    let s' ← body i s
    forLoop body k (i + 1) s'

/-- Loop `for (int i = lo; i < hi; i++) body` with an `int` upper bound. -/
def forRange {σ : Type} (lo : Nat) (hi : Int) (body : Nat → σ → Except ArmaError σ)
    (s : σ) : Except ArmaError σ :=
  forLoop body (hi - (lo : Int)).toNat lo s

/-- A C++ `bool` promoted to a number. -/
def b2q (b : Bool) : ℚ := if b then 1 else 0

/-- Line 11 of `risk.cpp`, the body of the inner loop of `risk_cpp`, in exact
arithmetic; `risk_step_fl` is the same line with every operation rounded. -/
def risk_step (c : Vec) (Delta : Mat) (omega : ℚ) (i j : Nat) (risk : ℚ) :
    Except ArmaError ℚ := do
  let ci ← c.at i
  let cj ← c.at j
  let d ← Delta.at i j
  let ci' ← c.at i
  let cj' ← c.at j
  let d' ← Delta.at i j
  pure (risk + (b2q (ci == cj) * d + b2q (ci' != cj') * omega * (1 - d')))

/-- The function `risk_cpp` (lines 6-15). -/
def risk_cpp (c : Vec) (Delta : Mat) (omega : ℚ) : Except ArmaError ℚ :=
  let n : Int := c.length
  forRange 0 (n - 1) (fun i risk =>
    forRange (i + 1) n (fun j risk => risk_step c Delta omega i j risk) risk) 0

/-- Line 23 of `risk.cpp`: the body of the inner loop of `rand_index`. -/
def rand_step (c1 c2 : Vec) (i j : Nat) (RI_mat : Mat) : Except ArmaError Mat := do
  let a ← c1.at i
  let b ← c1.at j
  let x ← c2.at i
  let y ← c2.at j
  let a' ← c1.at i
  let b' ← c1.at j
  let x' ← c2.at i
  let y' ← c2.at j
  RI_mat.setAt i j (b2q ((a == b) && (x == y)) + b2q ((a' != b') && (x' != y')))

/-- The function `rand_index` (lines 18-27). -/
def rand_index (c1 c2 : Vec) : Except ArmaError Double := do
  let n : Int := c1.length
  let RI_mat ← forRange 0 (n - 1) (fun i RI_mat =>
    forRange (i + 1) n (fun j RI_mat => rand_step c1 c2 i j RI_mat) RI_mat)
    (Mat.zeros c1.length c1.length)
  pure (Double.div RI_mat.accu ((1 / 2 : ℚ) * (n : ℚ) * ((n - 1 : Int) : ℚ)))

/-- The function `risk_matrix_cpp` (lines 30-37). -/
def risk_matrix_cpp (c : Mat) (Delta : Mat) (omega : ℚ) : Except ArmaError Vec :=
  let M : Int := c.n_rows
  forRange 0 M (fun m risk => do
    let row ← c.rowT m
    let r ← risk_cpp row Delta omega
    risk.setAt m r) (Vec.zeros c.n_rows)

/-- Modelled from the spec: the scan of `arma::index_min`, which is library
code outside the repository's sources.  `k` elements remain, `i` is the next
index, `min_val` the running minimum and `best` its index; only a strictly
smaller element replaces the running minimum. -/
def index_min_scan (v : Vec) : Nat → Nat → ℚ → Nat → Nat
  | 0, _, _, best => best
  | k + 1, i, min_val, best =>
    if v.getD i 0 < min_val then index_min_scan v k (i + 1) (v.getD i 0) i
    else index_min_scan v k (i + 1) min_val best

/-- Modelled from the spec: `arma::index_min` is library code that is not part
of the repository's sources.  The spec says it "returns the first index
achieving the minimum" and that on an empty vector it is "a numeric library
error".  The scan starts from element 0 and replaces the running minimum only
by a strictly smaller element, so the first minimal index wins. -/
def index_min (v : Vec) : Except ArmaError Nat :=
  if v.length = 0 then .error .no_elements
  else .ok (index_min_scan v (v.length - 1) 1 (v.getD 0 0) 0)

/-- The function `minimize_risk_cpp` (lines 40-43). -/
def minimize_risk_cpp (c : Mat) (Delta : Mat) (omega : ℚ) : Except ArmaError Vec := do
  let risk ← risk_matrix_cpp c Delta omega
  let k ← index_min risk
  c.rowT k

/-- The Delta matrix of the spec's worked example. -/
def exDelta : Mat :=
  Mat.ofRows 3 [[0, 4/5, 1/10], [4/5, 0, 1/5], [1/10, 1/5, 0]]

/-- Two candidate rows with the same partition, hence the same risk. -/
def exTie : Mat := Mat.ofRows 3 [[1, 1, 2], [5, 5, 9]]

/-- A `Delta` that agrees with `exDelta` above the diagonal only. -/
def exUpper : Mat :=
  Mat.ofRows 3 [[9, 4/5, 1/10], [7, 9, 1/5], [7, 7, 9]]

/-- Rounding of a rational to the nearest integer, a tie going to the even one. -/
def roundHalfEven (q : ℚ) : Int :=
  let f : Int := ⌊q⌋
  if q - f < 1 / 2 then f else if 1 / 2 < q - f then f + 1 else if f % 2 = 0 then f else f + 1

/-- The number `⌊log₂ n⌋` for `n ≥ 1`, by halving at most `k` times. -/
def log2_fuel : Nat → Nat → Nat
  | 0, _ => 0
  | k + 1, n => if n < 2 then 0 else log2_fuel k (n / 2) + 1

/-- The binary exponent `⌊log₂ |q|⌋` of a nonzero rational. -/
def ilog2 (q : ℚ) : Int :=
  let d : Int := (log2_fuel q.num.natAbs q.num.natAbs : Int) - (log2_fuel q.den q.den : Int)
  if (2 : ℚ) ^ d ≤ |q| then d else d - 1

/-- Rounding of an exact result to a `double` (IEEE 754 binary64, round to
nearest, ties to even): a significand of 53 bits at the exponent of `q`, and
the fixed spacing `2^-1074` below `2^-1022`.  Overflow is not modelled. -/
def fl (q : ℚ) : ℚ :=
  if q = 0 then 0
  else
    let e : Int := max (ilog2 q) (-1022)
    (if q < 0 then -1 else 1) * ((roundHalfEven (|q| / (2 : ℚ) ^ (e - 52)) : Int) : ℚ)
      * (2 : ℚ) ^ (e - 52)

/-- Line 11 of `risk.cpp` in `double` arithmetic: as `risk_step`, with each
product, difference and sum rounded by `fl`. -/
def risk_step_fl (c : Vec) (Delta : Mat) (omega : ℚ) (i j : Nat) (risk : ℚ) :
    Except ArmaError ℚ := do
  let ci ← c.at i
  let cj ← c.at j
  let d ← Delta.at i j
  let ci' ← c.at i
  let cj' ← c.at j
  let d' ← Delta.at i j
  pure (fl (risk + fl (fl (b2q (ci == cj) * d) + fl (fl (b2q (ci' != cj') * omega) * fl (1 - d')))))

/-- The function `risk_cpp` (lines 6-15) in `double` arithmetic: the loops of
`risk_cpp` around `risk_step_fl`. -/
def risk_cpp_fl (c : Vec) (Delta : Mat) (omega : ℚ) : Except ArmaError ℚ :=
  let n : Int := c.length
  forRange 0 (n - 1) (fun i risk =>
    forRange (i + 1) n (fun j risk => risk_step_fl c Delta omega i j risk) risk) 0

/-- The `double` nearest to `2.3`. -/
def exOmega : ℚ := 5179139571476070 / 2 ^ 51

/-- The index pairs `(i, j)` with `0 ≤ i < j < n`. -/
def pairs (n : Nat) : Finset (Nat × Nat) :=
  (Finset.range n ×ˢ Finset.range n).filter fun p => p.1 < p.2

/-- The risk in the spec's words (`pairwise_risk`): over all pairs `i < j`, add
`Delta[i,j]` if `c[i] == c[j]`, else add `omega * (1 - Delta[i,j])`. -/
def pairwise_risk (c : Vec) (Delta : Mat) (omega : ℚ) : ℚ :=
  ∑ p in pairs c.length,
    if c.get? p.1 = c.get? p.2 then Delta.elem p.1 p.2 else omega * (1 - Delta.elem p.1 p.2)

/-- The agreeing pairs in the spec's words: the pairs `i < j` that both vectors
co-cluster (`c1[i] == c1[j]` and `c2[i] == c2[j]`) or both split
(`c1[i] != c1[j]` and `c2[i] != c2[j]`). -/
def agreeing_pairs (c1 c2 : Vec) : Finset (Nat × Nat) :=
  (pairs c1.length).filter fun p =>
    (c1.get? p.1 = c1.get? p.2 ∧ c2.get? p.1 = c2.get? p.2) ∨
      (c1.get? p.1 ≠ c1.get? p.2 ∧ c2.get? p.1 ≠ c2.get? p.2)

/-- The value line 23 stores at `(i, j)`. -/
def agreeV (c1 c2 : Vec) (i j : Nat) : ℚ :=
  b2q ((c1.getD i 0 == c1.getD j 0) && (c2.getD i 0 == c2.getD j 0)) +
    b2q ((c1.getD i 0 != c1.getD j 0) && (c2.getD i 0 != c2.getD j 0))

/-! ## Loops -/

theorem forLoop_congr {σ : Type} (body body' : Nat → σ → Except ArmaError σ) (k lo : Nat) (s : σ)
    (h : ∀ j, lo ≤ j → j < lo + k → ∀ t, body j t = body' j t) :
    forLoop body k lo s = forLoop body' k lo s := by
  induction k generalizing lo s with
  | zero => rfl
  | succ k ih =>
    simp only [forLoop]
    rw [h lo (le_refl _) (by omega) s]
    cases body' lo s with
    | error e => rfl
    | ok s' =>
      exact ih (lo + 1) s' (fun j h1 h2 t => h j (by omega) (by omega) t)

theorem forLoop_inv {σ : Type} (body : Nat → σ → Except ArmaError σ) (P : Nat → σ → Prop)
    (k lo : Nat) (s : σ) (h0 : P lo s)
    (hstep : ∀ j, lo ≤ j → j < lo + k → ∀ t, P j t → ∃ t', body j t = .ok t' ∧ P (j + 1) t') :
    ∃ s', forLoop body k lo s = .ok s' ∧ P (lo + k) s' := by
  induction k generalizing lo s with
  | zero => exact ⟨s, rfl, h0⟩
  | succ k ih =>
    obtain ⟨t', ht', hP⟩ := hstep lo (le_refl _) (by omega) s h0
    obtain ⟨s', hs', hP'⟩ := ih (lo + 1) t' hP (fun j h1 h2 t => hstep j (by omega) (by omega) t)
    refine ⟨s', ?_, ?_⟩
    · simp only [forLoop, ht']
      exact hs'
    · have : lo + 1 + k = lo + (k + 1) := by omega
      rw [← this]; exact hP'

theorem forLoop_sum (body : Nat → ℚ → Except ArmaError ℚ) (f : Nat → ℚ) (k lo : Nat) (s : ℚ)
    (h : ∀ j, lo ≤ j → j < lo + k → ∀ t, body j t = .ok (t + f j)) :
    forLoop body k lo s = .ok (s + ∑ j in Finset.Ico lo (lo + k), f j) := by
  obtain ⟨s', hs', hP⟩ := forLoop_inv body (fun j t => t = s + ∑ a in Finset.Ico lo j, f a) k lo s
    (by simp) (fun j h1 h2 t ht => ⟨t + f j, h j h1 h2 t, by
      show t + f j = s + ∑ a in Finset.Ico lo (j + 1), f a
      rw [Finset.sum_Ico_succ_top h1, ht, add_assoc]⟩)
  rw [hs', hP]

/-! ## Element access -/

theorem vec_at_of_lt (c : Vec) (i : Nat) (h : i < c.length) : c.at i = .ok (c.getD i 0) := by
  simp [Vec.at, List.getD, List.get?_eq_getElem?, List.getElem?_eq_getElem h]

theorem mat_at_of_lt (M : Mat) (i j : Nat) (hi : i < M.n_rows) (hj : j < M.n_cols) :
    M.at i j = .ok (M.elem i j) := by
  simp [Mat.at, hi, hj]

theorem get?_eq_iff_getD (c : Vec) (i j : Nat) (hi : i < c.length) (hj : j < c.length) :
    c.get? i = c.get? j ↔ c.getD i 0 = c.getD j 0 := by
  simp [List.getD, List.get?_eq_getElem?, List.getElem?_eq_getElem hi,
    List.getElem?_eq_getElem hj]

/-! ## Sums over index pairs -/

theorem sum_pairs (n : Nat) (F : Nat → Nat → ℚ) :
    ∑ p in pairs n, F p.1 p.2 = ∑ i in Finset.Ico 0 (n - 1), ∑ j in Finset.Ico (i + 1) n, F i j := by
  have h1 : ∑ p in pairs n, F p.1 p.2
      = ∑ i in Finset.range n, ∑ j in Finset.Ico (i + 1) n, F i j := by
    rw [pairs, Finset.sum_filter, Finset.sum_product]
    refine Finset.sum_congr rfl (fun i _ => ?_)
    rw [← Finset.sum_filter]
    refine Finset.sum_congr ?_ (fun _ _ => rfl)
    ext j
    simp only [Finset.mem_filter, Finset.mem_range, Finset.mem_Ico]
    omega
  rw [h1]
  cases n with
  | zero => simp
  | succ m =>
    rw [Finset.sum_range_succ]
    simp

/-! ## `risk_cpp` in closed form -/

theorem risk_step_eq (c : Vec) (Delta : Mat) (omega : ℚ) (i j : Nat) (risk : ℚ)
    (hi : i < c.length) (hj : j < c.length) (hr : i < Delta.n_rows) (hc : j < Delta.n_cols) :
    risk_step c Delta omega i j risk = .ok (risk +
      (if c.get? i = c.get? j then Delta.elem i j else omega * (1 - Delta.elem i j))) := by
  simp only [risk_step, vec_at_of_lt c i hi, vec_at_of_lt c j hj, mat_at_of_lt Delta i j hr hc,
    get?_eq_iff_getD c i j hi hj]
  simp only [b2q, pure, Except.pure, bind, Except.bind, beq_iff_eq, bne_iff_ne, ne_eq,
    decide_eq_true_eq, decide_not, Bool.not_eq_true', decide_eq_false_iff_not]
  split_ifs <;> simp

theorem risk_cpp_eq (c : Vec) (Delta : Mat) (omega : ℚ)
    (hr : c.length ≤ Delta.n_rows) (hc : c.length ≤ Delta.n_cols) :
    risk_cpp c Delta omega = .ok (pairwise_risk c Delta omega) := by
  rw [pairwise_risk, sum_pairs c.length (fun i j =>
    if c.get? i = c.get? j then Delta.elem i j else omega * (1 - Delta.elem i j))]
  simp only [risk_cpp, forRange]
  have hk : ((c.length : Int) - 1 - ((0 : Nat) : Int)).toNat = c.length - 1 := by omega
  rw [hk, forLoop_sum _ (fun i => ∑ j in Finset.Ico (i + 1) c.length,
    if c.get? i = c.get? j then Delta.elem i j else omega * (1 - Delta.elem i j))]
  · simp
  · intro i _ hi2 t
    have hk2 : ((c.length : Int) - ((i + 1 : Nat) : Int)).toNat = c.length - (i + 1) := by omega
    rw [hk2, forLoop_sum _ (fun j =>
      if c.get? i = c.get? j then Delta.elem i j else omega * (1 - Delta.elem i j))]
    · have : i + 1 + (c.length - (i + 1)) = c.length := by omega
      rw [this]
    · intro j hj1 hj2 u
      exact risk_step_eq c Delta omega i j u (by omega) (by omega) (by omega) (by omega)

theorem risk_step_congr (c d : Vec) (Delta : Mat) (omega : ℚ) (i j : Nat) (risk : ℚ)
    (hi : i < c.length) (hj : j < c.length) (hlen : c.length = d.length)
    (h : c.get? i = c.get? j ↔ d.get? i = d.get? j) :
    risk_step c Delta omega i j risk = risk_step d Delta omega i j risk := by
  rw [get?_eq_iff_getD c i j hi hj, get?_eq_iff_getD d i j (hlen ▸ hi) (hlen ▸ hj)] at h
  have e1 : (c.getD i 0 == c.getD j 0) = (d.getD i 0 == d.getD j 0) := by
    rw [Bool.eq_iff_iff, beq_iff_eq, beq_iff_eq]; exact h
  have e2 : (c.getD i 0 != c.getD j 0) = (d.getD i 0 != d.getD j 0) := by
    simp only [bne, e1]
  simp only [risk_step, vec_at_of_lt c i hi, vec_at_of_lt c j hj, vec_at_of_lt d i (hlen ▸ hi),
    vec_at_of_lt d j (hlen ▸ hj), bind, Except.bind, e1, e2]

theorem risk_cpp_congr (c d : Vec) (Delta : Mat) (omega : ℚ) (hlen : c.length = d.length)
    (h : ∀ i j, i < j → j < c.length → (c.get? i = c.get? j ↔ d.get? i = d.get? j)) :
    risk_cpp c Delta omega = risk_cpp d Delta omega := by
  simp only [risk_cpp, forRange, ← hlen]
  refine forLoop_congr _ _ _ _ _ (fun i _ hi t => ?_)
  refine forLoop_congr _ _ _ _ _ (fun j hj1 hj2 u => ?_)
  exact risk_step_congr c d Delta omega i j u (by omega) (by omega) hlen
    (h i j (by omega) (by omega))

/-! ## `rand_index` in closed form -/

theorem rand_step_eq (c1 c2 : Vec) (i j : Nat) (M : Mat) (hi : i < c1.length)
    (hj : j < c1.length) (hlen : c1.length ≤ c2.length) :
    rand_step c1 c2 i j M = M.setAt i j (agreeV c1 c2 i j) := by
  simp only [rand_step, vec_at_of_lt c1 i hi, vec_at_of_lt c1 j hj,
    vec_at_of_lt c2 i (by omega), vec_at_of_lt c2 j (by omega), bind, Except.bind, agreeV]

theorem rand_inner_eq (c1 c2 : Vec) (i : Nat) (M : Mat) (hlen : c1.length ≤ c2.length)
    (hr : M.n_rows = c1.length) (hc : M.n_cols = c1.length)
    (he : ∀ a b, M.elem a b = if a < i ∧ a < b ∧ b < c1.length then agreeV c1 c2 a b else 0) :
    ∃ M', forRange (i + 1) (c1.length : Int) (fun j RI => rand_step c1 c2 i j RI) M = .ok M' ∧
      M'.n_rows = c1.length ∧ M'.n_cols = c1.length ∧
      ∀ a b, M'.elem a b = if a < i + 1 ∧ a < b ∧ b < c1.length then agreeV c1 c2 a b else 0 := by
  have hk : ((c1.length : Int) - ((i + 1 : Nat) : Int)).toNat = c1.length - (i + 1) := by omega
  obtain ⟨M', h1, h2, h3, h4⟩ := forLoop_inv (fun j RI => rand_step c1 c2 i j RI)
    (fun j N => N.n_rows = c1.length ∧ N.n_cols = c1.length ∧ ∀ a b, N.elem a b =
      if (a < i ∧ a < b ∧ b < c1.length) ∨ (a = i ∧ i < b ∧ b < j) then agreeV c1 c2 a b else 0)
    (c1.length - (i + 1)) (i + 1) M
    ⟨hr, hc, fun a b => by rw [he a b]; exact if_congr (by omega) rfl rfl⟩
    (fun j hj1 hj2 N ⟨hNr, hNc, hNe⟩ => by
      refine ⟨{ N with elem := fun a b => if a = i ∧ b = j then agreeV c1 c2 i j else N.elem a b },
        ?_, hNr, hNc, fun a b => ?_⟩
      · show rand_step c1 c2 i j N = _
        rw [rand_step_eq c1 c2 i j N (by omega) (by omega) hlen, Mat.setAt,
          if_pos ⟨by omega, by omega⟩]
      · show (if a = i ∧ b = j then agreeV c1 c2 i j else N.elem a b) = _
        by_cases hab : a = i ∧ b = j
        · obtain ⟨rfl, rfl⟩ := hab
          rw [if_pos ⟨rfl, rfl⟩, if_pos (Or.inr ⟨rfl, by omega, by omega⟩)]
        · rw [if_neg hab, hNe a b]
          exact if_congr (by omega) rfl rfl)
  refine ⟨M', ?_, h2, h3, fun a b => ?_⟩
  · rw [forRange, hk]; exact h1
  · rw [h4 a b]; exact if_congr (by omega) rfl rfl

theorem rand_loops_eq (c1 c2 : Vec) (hlen : c1.length ≤ c2.length) :
    ∃ M, forRange 0 ((c1.length : Int) - 1) (fun i RI =>
        forRange (i + 1) (c1.length : Int) (fun j RI => rand_step c1 c2 i j RI) RI)
        (Mat.zeros c1.length c1.length) = .ok M ∧
      M.n_rows = c1.length ∧ M.n_cols = c1.length ∧
      ∀ a b, M.elem a b = if a < b ∧ b < c1.length then agreeV c1 c2 a b else 0 := by
  have hk : ((c1.length : Int) - 1 - ((0 : Nat) : Int)).toNat = c1.length - 1 := by omega
  obtain ⟨M, h1, h2, h3, h4⟩ := forLoop_inv (fun i RI =>
      forRange (i + 1) (c1.length : Int) (fun j RI => rand_step c1 c2 i j RI) RI)
    (fun i N => N.n_rows = c1.length ∧ N.n_cols = c1.length ∧ ∀ a b, N.elem a b =
      if a < i ∧ a < b ∧ b < c1.length then agreeV c1 c2 a b else 0)
    (c1.length - 1) 0 (Mat.zeros c1.length c1.length)
    ⟨rfl, rfl, fun a b => by simp [Mat.zeros]⟩
    (fun i _ _ N ⟨hNr, hNc, hNe⟩ => rand_inner_eq c1 c2 i N hlen hNr hNc hNe)
  refine ⟨M, ?_, h2, h3, fun a b => ?_⟩
  · rw [forRange, hk]; exact h1
  · rw [h4 a b]; exact if_congr (by omega) rfl rfl

theorem list_range_sum (f : Nat → ℚ) (n : Nat) :
    ((List.range n).map f).sum = ∑ i in Finset.range n, f i := by
  induction n with
  | zero => rfl
  | succ n ih => rw [List.range_succ, List.map_append, List.sum_append, ih, Finset.sum_range_succ]; simp

theorem sum_pairs_ite (n : Nat) (F : Nat → Nat → ℚ) :
    ∑ p in pairs n, F p.1 p.2
      = ∑ j in Finset.range n, ∑ i in Finset.range n, if i < j ∧ j < n then F i j else 0 := by
  rw [pairs, Finset.sum_filter, Finset.sum_product, Finset.sum_comm]
  refine Finset.sum_congr rfl (fun j hj => Finset.sum_congr rfl (fun i _ => ?_))
  have hj' : j < n := Finset.mem_range.mp hj
  exact if_congr (by simp [hj']) rfl rfl

theorem accu_eq (M : Mat) (n : Nat) (F : Nat → Nat → ℚ) (hr : M.n_rows = n) (hc : M.n_cols = n)
    (he : ∀ a b, M.elem a b = if a < b ∧ b < n then F a b else 0) :
    M.accu = ∑ p in pairs n, F p.1 p.2 := by
  rw [sum_pairs_ite, Mat.accu, list_range_sum, hr, hc]
  refine Finset.sum_congr rfl (fun j _ => ?_)
  rw [list_range_sum]
  exact Finset.sum_congr rfl (fun i _ => he i j)

theorem agreeV_eq (c1 c2 : Vec) (i j : Nat) (hi : i < c1.length) (hj : j < c1.length)
    (hlen : c1.length ≤ c2.length) :
    agreeV c1 c2 i j =
      if (c1.get? i = c1.get? j ∧ c2.get? i = c2.get? j) ∨
        (c1.get? i ≠ c1.get? j ∧ c2.get? i ≠ c2.get? j) then 1 else 0 := by
  simp only [ne_eq, get?_eq_iff_getD c1 i j hi hj,
    get?_eq_iff_getD c2 i j (by omega) (by omega), agreeV, b2q, bne, Bool.and_eq_true,
    beq_iff_eq, Bool.not_eq_true', beq_eq_false_iff_ne]
  by_cases h1 : c1.getD i 0 = c1.getD j 0 <;> by_cases h2 : c2.getD i 0 = c2.getD j 0 <;>
    simp only [h1, h2, and_self, and_true, and_false, true_and, false_and, not_true, not_false_iff,
      or_false, or_true, false_or, true_or, if_true, if_false, ne_eq, add_zero, zero_add]

theorem rand_index_eq (c1 c2 : Vec) (hlen : c1.length ≤ c2.length) :
    rand_index c1 c2 = .ok (Double.div ((agreeing_pairs c1 c2).card : ℚ)
      ((1 / 2 : ℚ) * (c1.length : ℚ) * (((c1.length : Int) - 1 : Int) : ℚ))) := by
  obtain ⟨M, h1, h2, h3, h4⟩ := rand_loops_eq c1 c2 hlen
  have hacc : M.accu = ((agreeing_pairs c1 c2).card : ℚ) := by
    rw [accu_eq M c1.length (agreeV c1 c2) h2 h3 h4, agreeing_pairs, Finset.card_filter,
      Nat.cast_sum]
    refine Finset.sum_congr rfl (fun p hp => ?_)
    simp only [pairs, Finset.mem_filter, Finset.mem_product, Finset.mem_range] at hp
    rw [agreeV_eq c1 c2 p.1 p.2 hp.1.1 hp.1.2 hlen]
    split_ifs <;> simp
  simp only [rand_index, h1, bind, Except.bind, pure, Except.pure, hacc]
  rfl

theorem sum_range_id (n : Nat) : ∑ i in Finset.range n, (i : ℚ) = (n : ℚ) * ((n : ℚ) - 1) / 2 := by
  induction n with
  | zero => simp
  | succ n ih => rw [Finset.sum_range_succ, ih]; push_cast; ring

theorem card_pairs (n : Nat) : ((pairs n).card : ℚ) = (n : ℚ) * ((n : ℚ) - 1) / 2 := by
  have h : ((pairs n).card : ℚ)
      = ∑ j in Finset.range n, ∑ i in Finset.range n, if i < j ∧ j < n then (1 : ℚ) else 0 := by
    rw [← sum_pairs_ite n (fun _ _ => (1 : ℚ))]; simp
  rw [h, ← sum_range_id]
  refine Finset.sum_congr rfl (fun j hj => ?_)
  have hj' : j < n := Finset.mem_range.mp hj
  have hf : (Finset.range n).filter (fun i => i < j ∧ j < n) = Finset.range j := by
    ext i
    simp only [Finset.mem_filter, Finset.mem_range]
    omega
  rw [← Finset.sum_filter, hf]
  simp

theorem rand_index_finite (c1 c2 : Vec) (hlen : c1.length ≤ c2.length) (hn : 1 < c1.length) :
    rand_index c1 c2 = .ok (.finite (((agreeing_pairs c1 c2).card : ℚ) /
      ((c1.length : ℚ) * ((c1.length : ℚ) - 1) / 2))) := by
  have h1 : (1 : ℚ) < (c1.length : ℚ) := by exact_mod_cast hn
  have hd : (1 / 2 : ℚ) * (c1.length : ℚ) * (((c1.length : Int) - 1 : Int) : ℚ)
      = (c1.length : ℚ) * ((c1.length : ℚ) - 1) / 2 := by push_cast; ring
  have hne : (c1.length : ℚ) * ((c1.length : ℚ) - 1) / 2 ≠ 0 := by
    have : (0 : ℚ) < (c1.length : ℚ) * ((c1.length : ℚ) - 1) / 2 := by
      apply div_pos _ (by norm_num)
      exact mul_pos (by linarith) (by linarith)
    exact ne_of_gt this
  rw [rand_index_eq c1 c2 hlen, hd, Double.div, if_neg hne]

theorem agreeing_pairs_comm (c1 c2 : Vec) (hlen : c1.length = c2.length) :
    agreeing_pairs c1 c2 = agreeing_pairs c2 c1 := by
  rw [agreeing_pairs, agreeing_pairs, hlen]
  exact Finset.filter_congr (fun p _ => by rw [and_comm, and_comm (a := c1.get? p.1 ≠ _)])

theorem agreeing_pairs_self (c : Vec) : agreeing_pairs c c = pairs c.length := by
  rw [agreeing_pairs]
  exact Finset.filter_true_of_mem (fun p _ => by
    by_cases h : c.get? p.1 = c.get? p.2
    · exact Or.inl ⟨h, h⟩
    · exact Or.inr ⟨h, h⟩)

/-! ## `risk_matrix_cpp`, `index_min` and `minimize_risk_cpp` -/

theorem Mat.length_rowVec (M : Mat) (m : Nat) : (M.rowVec m).length = M.n_cols := by
  simp [Mat.rowVec]

theorem risk_matrix_cpp_eq (C Delta : Mat) (omega : ℚ) (r : Nat → ℚ)
    (h : ∀ m, m < C.n_rows → risk_cpp (C.rowVec m) Delta omega = .ok (r m)) :
    ∃ v : Vec, risk_matrix_cpp C Delta omega = .ok v ∧ v.length = C.n_rows ∧
      ∀ a, a < C.n_rows → v.getD a 0 = r a := by
  obtain ⟨v, h1, h2, h3⟩ := forLoop_inv (fun m (risk : Vec) => do
      let row ← C.rowT m
      let x ← risk_cpp row Delta omega
      risk.setAt m x)
    (fun m (v : Vec) => v.length = C.n_rows ∧ ∀ a, a < m → v.getD a 0 = r a)
    C.n_rows 0 (Vec.zeros C.n_rows) ⟨by simp [Vec.zeros], fun a ha => absurd ha (Nat.not_lt_zero a)⟩
    (fun m _ hm v ⟨hv1, hv2⟩ => by
      have hm' : m < C.n_rows := by omega
      refine ⟨v.set m (r m), ?_, by rw [List.length_set]; exact hv1, fun a ha => ?_⟩
      · show (do
          let row ← C.rowT m
          let x ← risk_cpp row Delta omega
          Vec.setAt v m x) = _
        simp only [Mat.rowT, if_pos hm', bind, Except.bind, h m hm', Vec.setAt, hv1]
      · rw [List.getD_eq_getElem?_getD, List.getElem?_set]
        by_cases ham : m = a
        · subst ham
          simp [hv1, hm']
        · rw [if_neg ham, ← List.getD_eq_getElem?_getD]
          exact hv2 a (by omega))
  refine ⟨v, ?_, h2, fun a ha => h3 a (by omega)⟩
  simp only [risk_matrix_cpp, forRange]
  have hk : ((C.n_rows : Int) - ((0 : Nat) : Int)).toNat = C.n_rows := by omega
  rw [hk]; exact h1

theorem index_min_scan_spec (v : Vec) (k i : Nat) (mn : ℚ) (best : Nat) (hb : best < i)
    (hmn : mn = v.getD best 0) (hle : ∀ j, j < i → mn ≤ v.getD j 0)
    (hlt : ∀ j, j < best → mn < v.getD j 0) :
    index_min_scan v k i mn best < i + k ∧
      (∀ j, j < i + k → v.getD (index_min_scan v k i mn best) 0 ≤ v.getD j 0) ∧
      (∀ j, j < index_min_scan v k i mn best → v.getD (index_min_scan v k i mn best) 0 < v.getD j 0) := by
  induction k generalizing i mn best with
  | zero =>
    simp only [index_min_scan, Nat.add_zero]
    exact ⟨hb, fun j hj => hmn ▸ hle j hj, fun j hj => hmn ▸ hlt j hj⟩
  | succ k ih =>
    have e : i + (k + 1) = i + 1 + k := by omega
    simp only [index_min_scan]
    by_cases hc : v.getD i 0 < mn
    · rw [if_pos hc, e]
      refine ih (i + 1) (v.getD i 0) i (by omega) rfl (fun j hj => ?_) (fun j hj => ?_)
      · by_cases hji : j = i
        · rw [hji]
        · exact le_of_lt (lt_of_lt_of_le hc (hle j (by omega)))
      · exact lt_of_lt_of_le hc (hle j hj)
    · rw [if_neg hc, e]
      refine ih (i + 1) mn best (by omega) hmn (fun j hj => ?_) hlt
      by_cases hji : j = i
      · rw [hji]; exact not_lt.mp hc
      · exact hle j (by omega)

theorem index_min_spec (v : Vec) (hv : 1 ≤ v.length) :
    ∃ k, index_min v = .ok k ∧ k < v.length ∧ (∀ j, j < v.length → v.getD k 0 ≤ v.getD j 0) ∧
      (∀ j, j < k → v.getD k 0 < v.getD j 0) := by
  have h := index_min_scan_spec v (v.length - 1) 1 (v.getD 0 0) 0 (by omega) rfl
    (fun j hj => by have : j = 0 := by omega
                    rw [this])
    (fun j hj => absurd hj (Nat.not_lt_zero j))
  have e : 1 + (v.length - 1) = v.length := by omega
  rw [e] at h
  refine ⟨_, ?_, h⟩
  rw [index_min, if_neg (by omega)]

theorem minimize_risk_cpp_spec (C Delta : Mat) (omega : ℚ) (r : Nat → ℚ) (hM : 1 ≤ C.n_rows)
    (h : ∀ m, m < C.n_rows → risk_cpp (C.rowVec m) Delta omega = .ok (r m)) :
    ∃ k, k < C.n_rows ∧ minimize_risk_cpp C Delta omega = .ok (C.rowVec k) ∧
      (∀ m, m < C.n_rows → r k ≤ r m) ∧ (∀ m, m < k → r k < r m) := by
  obtain ⟨v, hv1, hv2, hv3⟩ := risk_matrix_cpp_eq C Delta omega r h
  obtain ⟨k, hk1, hk2, hk3, hk4⟩ := index_min_spec v (by omega)
  rw [hv2] at hk2 hk3
  refine ⟨k, hk2, ?_, fun m hm => ?_, fun m hm => ?_⟩
  · simp only [minimize_risk_cpp, hv1, hk1, bind, Except.bind, Mat.rowT, if_pos hk2]
  · rw [← hv3 k hk2, ← hv3 m hm]; exact hk3 m hm
  · rw [← hv3 k hk2, ← hv3 m (by omega)]; exact hk4 m hm

theorem risk_cpp_rowVec (C Delta : Mat) (omega : ℚ) (hr : C.n_cols ≤ Delta.n_rows)
    (hc : C.n_cols ≤ Delta.n_cols) (m : Nat) :
    risk_cpp (C.rowVec m) Delta omega = .ok (pairwise_risk (C.rowVec m) Delta omega) :=
  risk_cpp_eq _ Delta omega (by rw [Mat.length_rowVec]; exact hr)
    (by rw [Mat.length_rowVec]; exact hc)

/-! ## Claims about `risk_cpp` -/

/-- C1: for a label vector `c` of length `n` and a `Delta` with at least `n`
rows and `n` columns, `risk_cpp` returns the sum over all index pairs
`0 ≤ i < j < n` of `Delta[i,j]` when `c[i] = c[j]` and of
`omega * (1 - Delta[i,j])` otherwise. -/
theorem risk_cpp_pairwise_sum (c : Vec) (Delta : Mat) (omega : ℚ)
    (hr : c.length ≤ Delta.n_rows) (hc : c.length ≤ Delta.n_cols) :
    risk_cpp c Delta omega = .ok
      (∑ p in (Finset.range c.length ×ˢ Finset.range c.length).filter (fun p => p.1 < p.2),
        if c.get? p.1 = c.get? p.2 then Delta.elem p.1 p.2
        else omega * (1 - Delta.elem p.1 p.2)) :=
  risk_cpp_eq c Delta omega hr hc

/-- The worked example of C1: labels `[1,1,2]`, the example `Delta` and
`omega = 1/2` give the risk `33/20`. -/
theorem risk_cpp_pairwise_sum_witness :
    ([1, 1, 2] : Vec).length ≤ exDelta.n_rows ∧ ([1, 1, 2] : Vec).length ≤ exDelta.n_cols ∧
      risk_cpp [1, 1, 2] exDelta (1 / 2) = .ok (33 / 20) := by
  refine ⟨by decide, by decide, ?_⟩
  rw [risk_cpp_pairwise_sum [1, 1, 2] exDelta (1 / 2) (by decide) (by decide)]
  simp [Finset.sum_filter, Finset.sum_product, Finset.sum_range_succ, exDelta, Mat.ofRows]
  norm_num

/-- C5: `risk_cpp` depends only on the partition induced by label equality.  If
`c` and `d` have the same length and `c[i] = c[j] ↔ d[i] = d[j]` for all
`i < j`, then for every `Delta` and `omega` the two calls have the same outcome;
in particular an injective relabelling of `c` leaves the outcome unchanged. -/
theorem risk_cpp_partition_invariant (c d : Vec) (Delta : Mat) (omega : ℚ)
    (hlen : c.length = d.length)
    (h : ∀ i j, i < j → j < c.length → (c.get? i = c.get? j ↔ d.get? i = d.get? j)) :
    risk_cpp c Delta omega = risk_cpp d Delta omega ∧
      ∀ f : ℚ → ℚ, Function.Injective f →
        risk_cpp (c.map f) Delta omega = risk_cpp c Delta omega := by
  refine ⟨risk_cpp_congr c d Delta omega hlen h, fun f hf => ?_⟩
  refine risk_cpp_congr (c.map f) c Delta omega (List.length_map c f) (fun i j _ _ => ?_)
  rw [List.get?_eq_getElem?, List.get?_eq_getElem?, List.get?_eq_getElem?,
    List.get?_eq_getElem?, List.getElem?_map, List.getElem?_map]
  exact (Option.map_injective hf).eq_iff

/-- The worked example of C5: labels `[1,1,2]` and `[5,5,9]` give the same risk. -/
theorem risk_cpp_partition_invariant_witness :
    risk_cpp [1, 1, 2] exDelta (1 / 2) = risk_cpp [5, 5, 9] exDelta (1 / 2) :=
  (risk_cpp_partition_invariant [1, 1, 2] [5, 5, 9] exDelta (1 / 2) rfl (by
    intro i j hij hj
    have hj3 : j < 3 := hj
    interval_cases j <;> interval_cases i <;> simp)).1

/-- C9: for a label vector of length 0 or 1 and any `Delta`, of any shape,
`risk_cpp` returns 0.  The statement covers a `Delta` without entries, on which
every read fails, so no entry of `Delta` is read. -/
theorem risk_cpp_short (c : Vec) (Delta : Mat) (omega : ℚ) (h : c.length ≤ 1) :
    risk_cpp c Delta omega = .ok 0 := by
  match c, h with
  | [], _ => rfl
  | [_], _ => rfl

/-- An instance of C9: one label and a `Delta` of shape `0 × 0`. -/
theorem risk_cpp_short_witness :
    ([7] : Vec).length ≤ 1 ∧ risk_cpp [7] (Mat.zeros 0 0) (1 / 2) = .ok 0 :=
  ⟨by decide, risk_cpp_short [7] (Mat.zeros 0 0) (1 / 2) (by decide)⟩

/-! ## Claims about `rand_index` -/

/-- C4: for label vectors `c1`, `c2` of equal length `n > 1`, `rand_index`
returns `A / (n * (n - 1) / 2)`, where `A` is the number of pairs `i < j` on
which the two vectors agree (both co-cluster the pair or both split it). -/
theorem rand_index_agreement_ratio (c1 c2 : Vec) (hlen : c1.length = c2.length)
    (hn : 1 < c1.length) :
    rand_index c1 c2 = .ok (.finite (((agreeing_pairs c1 c2).card : ℚ) /
      ((c1.length : ℚ) * ((c1.length : ℚ) - 1) / 2))) :=
  rand_index_finite c1 c2 (le_of_eq hlen) hn

/-- The worked example of C4: `rand_index [1,1,2] [1,2,2]` is `1/3`. -/
theorem rand_index_agreement_ratio_witness :
    ([1, 1, 2] : Vec).length = ([1, 2, 2] : Vec).length ∧ 1 < ([1, 1, 2] : Vec).length ∧
      rand_index [1, 1, 2] [1, 2, 2] = .ok (.finite (1 / 3)) := by
  refine ⟨by decide, by decide, ?_⟩
  rw [rand_index_agreement_ratio [1, 1, 2] [1, 2, 2] (by decide) (by decide)]
  have hA : (agreeing_pairs [1, 1, 2] [1, 2, 2]).card = 1 := by
    simp [agreeing_pairs, pairs]
    decide
  rw [hA]
  norm_num

/-- C6: for label vectors of equal length `n > 1`, `rand_index` returns a
finite value in the closed interval `[0, 1]`. -/
theorem rand_index_bounds (c1 c2 : Vec) (hlen : c1.length = c2.length) (hn : 1 < c1.length) :
    ∃ q : ℚ, rand_index c1 c2 = .ok (.finite q) ∧ 0 ≤ q ∧ q ≤ 1 := by
  have h1 : (1 : ℚ) < (c1.length : ℚ) := by exact_mod_cast hn
  have hpos : (0 : ℚ) < (c1.length : ℚ) * ((c1.length : ℚ) - 1) / 2 :=
    div_pos (mul_pos (by linarith) (by linarith)) (by norm_num)
  refine ⟨_, rand_index_finite c1 c2 (le_of_eq hlen) hn, div_nonneg (Nat.cast_nonneg _) hpos.le, ?_⟩
  rw [div_le_one hpos, ← card_pairs]
  exact_mod_cast Finset.card_filter_le _ _

/-- An instance of C6 at `[1,1,2]` and `[1,2,2]`. -/
theorem rand_index_bounds_witness :
    ∃ q : ℚ, rand_index [1, 1, 2] [1, 2, 2] = .ok (.finite q) ∧ 0 ≤ q ∧ q ≤ 1 :=
  rand_index_bounds [1, 1, 2] [1, 2, 2] (by decide) (by decide)

/-- C7: for a label vector `c` of length `n > 1`, `rand_index c c` is `1`. -/
theorem rand_index_self (c : Vec) (hn : 1 < c.length) :
    rand_index c c = .ok (.finite 1) := by
  have h1 : (1 : ℚ) < (c.length : ℚ) := by exact_mod_cast hn
  have hpos : (0 : ℚ) < (c.length : ℚ) * ((c.length : ℚ) - 1) / 2 :=
    div_pos (mul_pos (by linarith) (by linarith)) (by norm_num)
  rw [rand_index_finite c c (le_refl _) hn, agreeing_pairs_self, card_pairs, div_self hpos.ne.symm]

/-- The worked example of C7: `rand_index [1,1,2] [1,1,2]` is `1`. -/
theorem rand_index_self_witness :
    1 < ([1, 1, 2] : Vec).length ∧ rand_index [1, 1, 2] [1, 1, 2] = .ok (.finite 1) :=
  ⟨by decide, rand_index_self [1, 1, 2] (by decide)⟩

/-- C8: `rand_index` is symmetric: for label vectors of equal length the two
calls `rand_index c1 c2` and `rand_index c2 c1` have the same outcome. -/
theorem rand_index_symm (c1 c2 : Vec) (hlen : c1.length = c2.length) :
    rand_index c1 c2 = rand_index c2 c1 := by
  rw [rand_index_eq c1 c2 (le_of_eq hlen), rand_index_eq c2 c1 (le_of_eq hlen.symm),
    agreeing_pairs_comm c1 c2 hlen, hlen]

/-- An instance of C8 at `[1,1,2]` and `[1,2,2]`. -/
theorem rand_index_symm_witness :
    rand_index [1, 1, 2] [1, 2, 2] = rand_index [1, 2, 2] [1, 1, 2] :=
  rand_index_symm [1, 1, 2] [1, 2, 2] (by decide)

/-! ## Claims about `minimize_risk_cpp` -/

/-- C10: with `M = 0` candidate rows `minimize_risk_cpp` fails with the error
of `index_min` on a vector without elements, and returns no vector; with
`M ≥ 1` rows and a `Delta` of at least `n` rows and `n` columns it returns a
row. -/
theorem minimize_risk_cpp_empty (C Delta : Mat) (omega : ℚ) :
    (C.n_rows = 0 → minimize_risk_cpp C Delta omega = .error .no_elements) ∧
      (1 ≤ C.n_rows → C.n_cols ≤ Delta.n_rows → C.n_cols ≤ Delta.n_cols →
        ∃ k, k < C.n_rows ∧ minimize_risk_cpp C Delta omega = .ok (C.rowVec k)) := by
  constructor
  · intro h0
    simp only [minimize_risk_cpp, risk_matrix_cpp, forRange, h0]
    rfl
  · intro hM hr hc
    obtain ⟨k, hk, hres, _, _⟩ := minimize_risk_cpp_spec C Delta omega
      (fun m => pairwise_risk (C.rowVec m) Delta omega) hM
      (fun m _ => risk_cpp_rowVec C Delta omega hr hc m)
    exact ⟨k, hk, hres⟩

/-- Two instances of C10: no candidate row, and the two candidates of `exTie`. -/
theorem minimize_risk_cpp_empty_witness :
    minimize_risk_cpp (Mat.zeros 0 3) exDelta (1 / 2) = .error .no_elements ∧
      ∃ k, k < exTie.n_rows ∧ minimize_risk_cpp exTie exDelta (1 / 2) = .ok (exTie.rowVec k) :=
  ⟨(minimize_risk_cpp_empty (Mat.zeros 0 3) exDelta (1 / 2)).1 rfl,
    (minimize_risk_cpp_empty exTie exDelta (1 / 2)).2 (by decide) (by decide) (by decide)⟩

/-! ## Failing loops -/

theorem forLoop_oob_only {σ : Type} (body : Nat → σ → Except ArmaError σ) (k lo : Nat) (s : σ)
    (hall : ∀ j t e, body j t = .error e → e = .index_out_of_bounds) :
    ∀ e, forLoop body k lo s = .error e → e = .index_out_of_bounds := by
  induction k generalizing lo s with
  | zero => intro e he; cases he
  | succ k ih =>
    intro e he
    simp only [forLoop] at he
    cases hb : body lo s with
    | error e' =>
      rw [hb] at he
      cases he
      exact hall lo s _ hb
    | ok t' =>
      rw [hb] at he
      exact ih (lo + 1) t' e he

theorem forLoop_error {σ : Type} (body : Nat → σ → Except ArmaError σ) (k lo : Nat) (s : σ)
    (j0 : Nat) (h1 : lo ≤ j0) (h2 : j0 < lo + k)
    (hall : ∀ j t e, body j t = .error e → e = .index_out_of_bounds)
    (herr : ∀ t, body j0 t = .error .index_out_of_bounds) :
    forLoop body k lo s = .error .index_out_of_bounds := by
  induction k generalizing lo s with
  | zero => omega
  | succ k ih =>
    simp only [forLoop]
    cases hb : body lo s with
    | error e' =>
      rw [hall lo s e' hb]
      rfl
    | ok t' =>
      have hne : lo ≠ j0 := by
        intro h
        rw [h, herr s] at hb
        cases hb
      exact ih (lo + 1) t' (by omega) (by omega)

theorem nested_error {σ : Type} (step : Nat → Nat → σ → Except ArmaError σ) (n : Nat) (s : σ)
    (i0 j0 : Nat) (hij : i0 < j0) (hj : j0 < n)
    (hall : ∀ i j t e, step i j t = .error e → e = .index_out_of_bounds)
    (herr : ∀ t, step i0 j0 t = .error .index_out_of_bounds) :
    forRange 0 ((n : Int) - 1) (fun i t => forRange (i + 1) (n : Int) (fun j u => step i j u) t) s
      = .error .index_out_of_bounds := by
  have hk : ((n : Int) - 1 - ((0 : Nat) : Int)).toNat = n - 1 := by omega
  rw [forRange, hk]
  refine forLoop_error _ (n - 1) 0 s i0 (Nat.zero_le _) (by omega) (fun i t e he => ?_) (fun t => ?_)
  · exact forLoop_oob_only _ _ _ t (fun j u => hall i j u) e he
  · have hk2 : ((n : Int) - ((i0 + 1 : Nat) : Int)).toNat = n - (i0 + 1) := by omega
    show forRange (i0 + 1) (n : Int) (fun j u => step i0 j u) t = _
    rw [forRange, hk2]
    exact forLoop_error _ _ _ t j0 (by omega) (by omega) (fun j u => hall i0 j u) herr

theorem vec_at_oob_only (c : Vec) (i : Nat) (e : ArmaError) (h : c.at i = .error e) :
    e = .index_out_of_bounds := by
  unfold Vec.at at h
  split at h
  · cases h
  · cases h; rfl

theorem vec_at_of_ge (c : Vec) (i : Nat) (h : c.length ≤ i) :
    c.at i = .error .index_out_of_bounds := by
  simp [Vec.at, List.get?_eq_getElem?, List.getElem?_eq_none h]

theorem mat_at_oob_only (M : Mat) (i j : Nat) (e : ArmaError) (h : M.at i j = .error e) :
    e = .index_out_of_bounds := by
  unfold Mat.at at h
  split at h
  · cases h
  · cases h; rfl

theorem mat_setAt_oob_only (M : Mat) (i j : Nat) (v : ℚ) (e : ArmaError)
    (h : M.setAt i j v = .error e) : e = .index_out_of_bounds := by
  unfold Mat.setAt at h
  split at h
  · cases h
  · cases h; rfl

theorem bind_oob_only {α β : Type} (x : Except ArmaError α) (f : α → Except ArmaError β)
    (hx : ∀ e, x = .error e → e = .index_out_of_bounds)
    (hf : ∀ a e, f a = .error e → e = .index_out_of_bounds) :
    ∀ e, (x >>= f) = .error e → e = .index_out_of_bounds := by
  intro e he
  cases x with
  | error e' =>
    cases he
    exact hx e rfl
  | ok a => exact hf a e he

/-! ## `risk_cpp` without a shape check -/

theorem risk_step_oob_only (c : Vec) (Delta : Mat) (omega : ℚ) (i j : Nat) (t : ℚ) :
    ∀ e, risk_step c Delta omega i j t = .error e → e = .index_out_of_bounds := by
  unfold risk_step
  refine bind_oob_only _ _ (vec_at_oob_only c i) (fun _ => ?_)
  refine bind_oob_only _ _ (vec_at_oob_only c j) (fun _ => ?_)
  refine bind_oob_only _ _ (mat_at_oob_only Delta i j) (fun _ => ?_)
  refine bind_oob_only _ _ (vec_at_oob_only c i) (fun _ => ?_)
  refine bind_oob_only _ _ (vec_at_oob_only c j) (fun _ => ?_)
  refine bind_oob_only _ _ (mat_at_oob_only Delta i j) (fun _ => ?_)
  intro e he
  cases he

theorem risk_step_error (c : Vec) (Delta : Mat) (omega : ℚ) (i j : Nat) (t : ℚ)
    (hbad : ¬(i < Delta.n_rows ∧ j < Delta.n_cols)) :
    risk_step c Delta omega i j t = .error .index_out_of_bounds := by
  have hd : Delta.at i j = .error .index_out_of_bounds := by rw [Mat.at, if_neg hbad]
  cases hr : risk_step c Delta omega i j t with
  | error e => rw [risk_step_oob_only c Delta omega i j t e hr]
  | ok x =>
    exfalso
    unfold risk_step at hr
    rw [hd] at hr
    cases h1 : c.at i <;> cases h2 : c.at j <;> rw [h1, h2] at hr <;> cases hr

theorem risk_cpp_error (c : Vec) (Delta : Mat) (omega : ℚ) (i0 j0 : Nat) (hij : i0 < j0)
    (hj : j0 < c.length) (hbad : ¬(i0 < Delta.n_rows ∧ j0 < Delta.n_cols)) :
    risk_cpp c Delta omega = .error .index_out_of_bounds :=
  nested_error (fun i j t => risk_step c Delta omega i j t) c.length 0 i0 j0 hij hj
    (fun i j t => risk_step_oob_only c Delta omega i j t)
    (fun t => risk_step_error c Delta omega i0 j0 t hbad)

theorem risk_cpp_eq_rows (c : Vec) (Delta : Mat) (omega : ℚ)
    (hr : c.length - 1 ≤ Delta.n_rows) (hc : c.length ≤ Delta.n_cols) :
    risk_cpp c Delta omega = .ok (pairwise_risk c Delta omega) := by
  rw [pairwise_risk, sum_pairs c.length (fun i j =>
    if c.get? i = c.get? j then Delta.elem i j else omega * (1 - Delta.elem i j))]
  simp only [risk_cpp, forRange]
  have hk : ((c.length : Int) - 1 - ((0 : Nat) : Int)).toNat = c.length - 1 := by omega
  rw [hk, forLoop_sum _ (fun i => ∑ j in Finset.Ico (i + 1) c.length,
    if c.get? i = c.get? j then Delta.elem i j else omega * (1 - Delta.elem i j))]
  · simp
  · intro i _ hi2 t
    have hk2 : ((c.length : Int) - ((i + 1 : Nat) : Int)).toNat = c.length - (i + 1) := by omega
    rw [hk2, forLoop_sum _ (fun j =>
      if c.get? i = c.get? j then Delta.elem i j else omega * (1 - Delta.elem i j))]
    · have : i + 1 + (c.length - (i + 1)) = c.length := by omega
      rw [this]
    · intro j hj1 hj2 u
      exact risk_step_eq c Delta omega i j u (by omega) (by omega) (by omega) (by omega)

/-! ## `rand_index` without a length check -/

theorem rand_step_oob_only (c1 c2 : Vec) (i j : Nat) (M : Mat) :
    ∀ e, rand_step c1 c2 i j M = .error e → e = .index_out_of_bounds := by
  unfold rand_step
  refine bind_oob_only _ _ (vec_at_oob_only c1 i) (fun _ => ?_)
  refine bind_oob_only _ _ (vec_at_oob_only c1 j) (fun _ => ?_)
  refine bind_oob_only _ _ (vec_at_oob_only c2 i) (fun _ => ?_)
  refine bind_oob_only _ _ (vec_at_oob_only c2 j) (fun _ => ?_)
  refine bind_oob_only _ _ (vec_at_oob_only c1 i) (fun _ => ?_)
  refine bind_oob_only _ _ (vec_at_oob_only c1 j) (fun _ => ?_)
  refine bind_oob_only _ _ (vec_at_oob_only c2 i) (fun _ => ?_)
  refine bind_oob_only _ _ (vec_at_oob_only c2 j) (fun _ => ?_)
  exact mat_setAt_oob_only M i j _

theorem rand_step_error (c1 c2 : Vec) (i j : Nat) (M : Mat) (hbad : c2.length ≤ j) :
    rand_step c1 c2 i j M = .error .index_out_of_bounds := by
  have hd : c2.at j = .error .index_out_of_bounds := vec_at_of_ge c2 j hbad
  cases hr : rand_step c1 c2 i j M with
  | error e => rw [rand_step_oob_only c1 c2 i j M e hr]
  | ok x =>
    exfalso
    unfold rand_step at hr
    rw [hd] at hr
    cases h1 : c1.at i <;> cases h2 : c1.at j <;> cases h3 : c2.at i <;>
      rw [h1, h2, h3] at hr <;> cases hr

theorem rand_index_error (c1 c2 : Vec) (hn : 2 ≤ c1.length) (hlen : c2.length < c1.length) :
    rand_index c1 c2 = .error .index_out_of_bounds := by
  have h := nested_error (fun i j M => rand_step c1 c2 i j M) c1.length
    (Mat.zeros c1.length c1.length) 0 (c1.length - 1) (by omega) (by omega)
    (fun i j M => rand_step_oob_only c1 c2 i j M)
    (fun M => rand_step_error c1 c2 0 (c1.length - 1) M (by omega))
  simp only [rand_index, h, bind, Except.bind]

theorem rand_index_short (c1 c2 : Vec) (hn : c1.length ≤ 1) : rand_index c1 c2 = .ok .nan := by
  match c1, hn with
  | [], _ => simp [rand_index, forRange, forLoop, Mat.accu, Mat.zeros, Double.div, bind,
      Except.bind, pure, Except.pure]
  | [_], _ => simp [rand_index, forRange, forLoop, Mat.accu, Mat.zeros, Double.div, bind,
      Except.bind, pure, Except.pure]

theorem agreeing_pairs_take (c1 c2 : Vec) :
    agreeing_pairs c1 (c2.take c1.length) = agreeing_pairs c1 c2 := by
  rw [agreeing_pairs, agreeing_pairs]
  refine Finset.filter_congr (fun p hp => ?_)
  simp only [pairs, Finset.mem_filter, Finset.mem_product, Finset.mem_range] at hp
  simp only [List.get?_eq_getElem?, List.getElem?_take_of_lt hp.1.1, List.getElem?_take_of_lt hp.1.2]

/-! ## Claims about missing input checks -/

/-- C11, as the code behaves: when the label vectors have length `n ≤ 1`
(already when the first has), `rand_index` reports no error; it divides 0 by
`0.5 * n * (n - 1) = 0` and returns NaN. -/
theorem rand_index_short_nan (c1 c2 : Vec) (hn : c1.length ≤ 1) :
    rand_index c1 c2 = .ok .nan ∧ ∀ e, rand_index c1 c2 ≠ .error e := by
  have h : rand_index c1 c2 = .ok .nan := rand_index_short c1 c2 hn
  refine ⟨h, fun e he => ?_⟩
  rw [h] at he
  cases he

/-- An instance of the amended C11 at two vectors without elements. -/
theorem rand_index_short_nan_witness : rand_index [] [] = .ok .nan :=
  (rand_index_short_nan [] [] (by decide)).1

/-- C11 fails as stated: on two vectors of length 1 `rand_index` returns NaN
and reports no error. -/
theorem rand_index_short_counterexample :
    rand_index [1] [1] = .ok .nan ∧ ∀ e, rand_index [1] [1] ≠ .error e := by
  have h : rand_index [1] [1] = .ok .nan := rand_index_short [1] [1] (by decide)
  refine ⟨h, fun e he => ?_⟩
  rw [h] at he
  cases he

/-- C12, as the code behaves: `rand_index` does not compare the two lengths.
With `c2` at least as long as `c1` it reports no error and returns a value,
the one it returns on `c1` and the first `length c1` entries of `c2`; for
`length c1 > 1` that value is the finite ratio of the pairs on which `c1` and
those entries agree.  With `c2` shorter than `c1` and `length c1 ≥ 2` the
read of `c2` past its end fails with the library's out-of-bounds error. -/
theorem rand_index_no_length_check (c1 c2 : Vec) :
    (c1.length ≤ c2.length →
      ∃ r, rand_index c1 c2 = .ok r ∧ rand_index c1 (c2.take c1.length) = .ok r ∧
        (1 < c1.length → r = .finite (((agreeing_pairs c1 (c2.take c1.length)).card : ℚ) /
          ((c1.length : ℚ) * ((c1.length : ℚ) - 1) / 2)))) ∧
      (c2.length < c1.length → 2 ≤ c1.length →
        rand_index c1 c2 = .error .index_out_of_bounds) := by
  refine ⟨fun h => ?_, fun h hn => rand_index_error c1 c2 hn h⟩
  have hl : c1.length ≤ (c2.take c1.length).length := by rw [List.length_take]; omega
  refine ⟨_, ?_, rand_index_eq c1 (c2.take c1.length) hl, fun hn => ?_⟩
  · rw [rand_index_eq c1 c2 h, agreeing_pairs_take]
  · have h1 := rand_index_finite c1 (c2.take c1.length) hl hn
    rw [rand_index_eq c1 (c2.take c1.length) hl] at h1
    exact Except.ok.inj h1

/-- Two instances of the amended C12: with a longer second vector the value
`1/3` is returned, the value for `[1,1,2]` and `[1,2,2]`; with a shorter one
the call fails. -/
theorem rand_index_no_length_check_witness :
    (∃ r, rand_index [1, 1, 2] [1, 2, 2, 7] = .ok r ∧ rand_index [1, 1, 2] [1, 2, 2] = .ok r ∧
      r = .finite (1 / 3)) ∧
      rand_index [1, 1, 2] [1, 2] = .error .index_out_of_bounds := by
  refine ⟨?_, (rand_index_no_length_check [1, 1, 2] [1, 2]).2 (by decide) (by decide)⟩
  obtain ⟨r, h1, h2, h3⟩ := (rand_index_no_length_check [1, 1, 2] [1, 2, 2, 7]).1 (by decide)
  refine ⟨r, h1, h2, ?_⟩
  rw [h3 (by decide)]
  have hA : (agreeing_pairs [1, 1, 2] (List.take ([1, 1, 2] : Vec).length [1, 2, 2, 7])).card
      = 1 := by
    simp [agreeing_pairs, pairs]
    decide
  rw [hA]
  norm_num

/-- C12 fails as stated: with a second vector of length 4 and a first of
length 3, `rand_index` reports no error and returns `1/3`. -/
theorem rand_index_no_length_check_counterexample :
    ([1, 1, 2] : Vec).length ≠ ([1, 2, 2, 7] : Vec).length ∧
      rand_index [1, 1, 2] [1, 2, 2, 7] = .ok (.finite (1 / 3)) := by
  refine ⟨by decide, ?_⟩
  rw [rand_index_finite [1, 1, 2] [1, 2, 2, 7] (by decide) (by decide)]
  have hA : (agreeing_pairs [1, 1, 2] [1, 2, 2, 7]).card = 1 := by
    simp [agreeing_pairs, pairs]
    decide
  rw [hA]
  norm_num

/-- C13, as the code behaves: `risk_cpp` does not check the shape of `Delta`.
It returns the pairwise sum whenever `n ≤ 1`, or `Delta` has at least `n - 1`
rows and `n` columns, so also for a `Delta` larger than `n × n`; with `n ≥ 2`
and fewer rows or columns the read of `Delta` outside its shape fails with the
library's out-of-bounds error. -/
theorem risk_cpp_no_shape_check (c : Vec) (Delta : Mat) (omega : ℚ) :
    (c.length ≤ 1 ∨ (c.length - 1 ≤ Delta.n_rows ∧ c.length ≤ Delta.n_cols) →
        risk_cpp c Delta omega = .ok (pairwise_risk c Delta omega)) ∧
      (2 ≤ c.length → Delta.n_rows < c.length - 1 ∨ Delta.n_cols < c.length →
        risk_cpp c Delta omega = .error .index_out_of_bounds) := by
  constructor
  · rintro (h | ⟨hr, hc⟩)
    · match c, h with
      | [], _ => rfl
      | [_], _ => rfl
    · exact risk_cpp_eq_rows c Delta omega hr hc
  · rintro hn (h | h)
    · exact risk_cpp_error c Delta omega Delta.n_rows (Delta.n_rows + 1) (by omega) (by omega)
        (by omega)
    · exact risk_cpp_error c Delta omega 0 (c.length - 1) (by omega) (by omega) (by omega)

/-- Three instances of the amended C13: a larger `Delta`, one label with a
`Delta` of shape `0 × 0`, and three labels with a `Delta` of shape `2 × 2`. -/
theorem risk_cpp_no_shape_check_witness :
    risk_cpp [1, 1] exDelta (1 / 2) = .ok (pairwise_risk [1, 1] exDelta (1 / 2)) ∧
      risk_cpp [7] (Mat.zeros 0 0) (1 / 2) = .ok (pairwise_risk [7] (Mat.zeros 0 0) (1 / 2)) ∧
      risk_cpp [1, 1, 2] (Mat.zeros 2 2) (1 / 2) = .error .index_out_of_bounds :=
  ⟨(risk_cpp_no_shape_check [1, 1] exDelta (1 / 2)).1 (Or.inr ⟨by decide, by decide⟩),
    (risk_cpp_no_shape_check [7] (Mat.zeros 0 0) (1 / 2)).1 (Or.inl (by decide)),
    (risk_cpp_no_shape_check [1, 1, 2] (Mat.zeros 2 2) (1 / 2)).2 (by decide)
      (Or.inr (by decide))⟩

/-- C13 fails as stated: with two labels and the `3 × 3` example `Delta`,
`risk_cpp` reports no error and returns `4/5`. -/
theorem risk_cpp_no_shape_check_counterexample :
    ¬(exDelta.n_rows = ([1, 1] : Vec).length ∧ exDelta.n_cols = ([1, 1] : Vec).length) ∧
      risk_cpp [1, 1] exDelta (1 / 2) = .ok (4 / 5) := by
  refine ⟨by decide, ?_⟩
  rw [risk_cpp_eq [1, 1] exDelta (1 / 2) (by decide) (by decide)]
  simp [pairwise_risk, pairs, Finset.sum_filter, Finset.sum_product, Finset.sum_range_succ,
    exDelta, Mat.ofRows]

/-! ## Further claims about `risk_cpp` and `risk_matrix_cpp` -/

theorem pairwise_risk_congr (c : Vec) (Delta Delta' : Mat) (omega : ℚ)
    (h : ∀ i j, i < j → j < c.length → Delta.elem i j = Delta'.elem i j) :
    pairwise_risk c Delta omega = pairwise_risk c Delta' omega := by
  rw [pairwise_risk, pairwise_risk]
  refine Finset.sum_congr rfl (fun p hp => ?_)
  simp only [pairs, Finset.mem_filter, Finset.mem_product, Finset.mem_range] at hp
  rw [h p.1 p.2 hp.2 hp.1.2]

/-- C14: `risk_cpp` reads only the entries of `Delta` strictly above the
diagonal.  If `Delta` and `Delta'` both have at least `n` rows and `n` columns
and agree on all entries `(i, j)` with `i < j < n`, the two calls return the
same value; the diagonal and the lower triangle have no influence. -/
theorem risk_cpp_upper_triangle (c : Vec) (Delta Delta' : Mat) (omega : ℚ)
    (hr : c.length ≤ Delta.n_rows) (hc : c.length ≤ Delta.n_cols)
    (hr' : c.length ≤ Delta'.n_rows) (hc' : c.length ≤ Delta'.n_cols)
    (h : ∀ i j, i < j → j < c.length → Delta.elem i j = Delta'.elem i j) :
    risk_cpp c Delta omega = risk_cpp c Delta' omega := by
  rw [risk_cpp_eq c Delta omega hr hc, risk_cpp_eq c Delta' omega hr' hc',
    pairwise_risk_congr c Delta Delta' omega h]

/-- An instance of C14: `exUpper` differs from `exDelta` on the diagonal and
below it, and is not symmetric. -/
theorem risk_cpp_upper_triangle_witness :
    exDelta.elem 1 0 ≠ exUpper.elem 1 0 ∧
      risk_cpp [1, 1, 2] exDelta (1 / 2) = risk_cpp [1, 1, 2] exUpper (1 / 2) := by
  refine ⟨by simp [exDelta, exUpper, Mat.ofRows]; norm_num, ?_⟩
  refine risk_cpp_upper_triangle [1, 1, 2] exDelta exUpper (1 / 2) (by decide) (by decide)
    (by decide) (by decide) (fun i j hij hj => ?_)
  have hj3 : j < 3 := hj
  interval_cases j <;> interval_cases i <;> simp [exDelta, exUpper, Mat.ofRows]

/-- C15: when `risk_cpp` returns a value on every row of the candidate matrix
`C` with `M` rows (`M = 0` included), `risk_matrix_cpp` returns a vector of
length `M` whose entry `m` is the value of `risk_cpp` on row `m`. -/
theorem risk_matrix_cpp_entries (C Delta : Mat) (omega : ℚ)
    (h : ∀ m, m < C.n_rows → ∃ x, risk_cpp (C.rowVec m) Delta omega = .ok x) :
    ∃ v : Vec, risk_matrix_cpp C Delta omega = .ok v ∧ v.length = C.n_rows ∧
      ∀ m, m < C.n_rows → ∃ row, C.rowT m = .ok row ∧ risk_cpp row Delta omega = v.at m := by
  obtain ⟨v, hv1, hv2, hv3⟩ := risk_matrix_cpp_eq C Delta omega
    (fun m => match risk_cpp (C.rowVec m) Delta omega with
      | .ok x => x
      | .error _ => 0)
    (fun m hm => by
      obtain ⟨x, hx⟩ := h m hm
      simp only [hx])
  refine ⟨v, hv1, hv2, fun m hm => ⟨C.rowVec m, by rw [Mat.rowT, if_pos hm], ?_⟩⟩
  obtain ⟨x, hx⟩ := h m hm
  rw [vec_at_of_lt v m (by omega), hv3 m hm]
  simp only [hx]

/-- Two instances of C15: no candidate row, and the two candidates of `exTie`. -/
theorem risk_matrix_cpp_entries_witness :
    (∃ v : Vec, risk_matrix_cpp (Mat.zeros 0 3) exDelta (1 / 2) = .ok v ∧ v.length = 0 ∧
      ∀ m, m < 0 → ∃ row, (Mat.zeros 0 3).rowT m = .ok row ∧
        risk_cpp row exDelta (1 / 2) = v.at m) ∧
    ∃ v : Vec, risk_matrix_cpp exTie exDelta (1 / 2) = .ok v ∧ v.length = 2 ∧
      ∀ m, m < 2 → ∃ row, exTie.rowT m = .ok row ∧ risk_cpp row exDelta (1 / 2) = v.at m :=
  ⟨risk_matrix_cpp_entries (Mat.zeros 0 3) exDelta (1 / 2)
      (fun m hm => absurd hm (Nat.not_lt_zero m)),
    risk_matrix_cpp_entries exTie exDelta (1 / 2)
      (fun m _ => ⟨_, risk_cpp_rowVec exTie exDelta (1 / 2) (by decide) (by decide) m⟩)⟩

theorem pairwise_risk_bounds (c : Vec) (Delta : Mat) (omega : ℚ) (hw : 0 ≤ omega)
    (hD : ∀ i j, i < j → j < c.length → 0 ≤ Delta.elem i j ∧ Delta.elem i j ≤ 1) :
    0 ≤ pairwise_risk c Delta omega ∧ pairwise_risk c Delta omega
      ≤ max 1 omega * ((c.length : ℚ) * ((c.length : ℚ) - 1) / 2) := by
  have hterm : ∀ p ∈ pairs c.length,
      0 ≤ (if c.get? p.1 = c.get? p.2 then Delta.elem p.1 p.2
        else omega * (1 - Delta.elem p.1 p.2)) ∧
      (if c.get? p.1 = c.get? p.2 then Delta.elem p.1 p.2
        else omega * (1 - Delta.elem p.1 p.2)) ≤ max 1 omega := by
    intro p hp
    simp only [pairs, Finset.mem_filter, Finset.mem_product, Finset.mem_range] at hp
    obtain ⟨h0, h1⟩ := hD p.1 p.2 hp.2 hp.1.2
    split_ifs
    · exact ⟨h0, le_trans h1 (le_max_left _ _)⟩
    · refine ⟨mul_nonneg hw (by linarith), le_trans ?_ (le_max_right _ _)⟩
      nlinarith
  refine ⟨Finset.sum_nonneg (fun p hp => (hterm p hp).1), ?_⟩
  rw [← card_pairs, mul_comm, ← nsmul_eq_mul]
  exact Finset.sum_le_card_nsmul _ _ _ (fun p hp => (hterm p hp).2)

/-! ## Further claims about `rand_index`, and bounds of the indices -/

/-- C16: for label vectors of equal length `n > 1`, `rand_index` returns 1
exactly when the two vectors induce the same partition: `c1[i] = c1[j]` iff
`c2[i] = c2[j]` for all `i < j`. -/
theorem rand_index_one_iff (c1 c2 : Vec) (hlen : c1.length = c2.length) (hn : 1 < c1.length) :
    rand_index c1 c2 = .ok (.finite 1) ↔
      ∀ i j, i < j → j < c1.length → (c1.get? i = c1.get? j ↔ c2.get? i = c2.get? j) := by
  have h1 : (1 : ℚ) < (c1.length : ℚ) := by exact_mod_cast hn
  have hpos : (0 : ℚ) < (c1.length : ℚ) * ((c1.length : ℚ) - 1) / 2 :=
    div_pos (mul_pos (by linarith) (by linarith)) (by norm_num)
  rw [rand_index_finite c1 c2 (le_of_eq hlen) hn]
  simp only [Except.ok.injEq, Double.finite.injEq]
  rw [div_eq_one_iff_eq hpos.ne.symm, ← card_pairs, Nat.cast_inj, agreeing_pairs,
    Finset.card_filter_eq_iff]
  constructor
  · intro h i j hij hj
    have hp : (i, j) ∈ pairs c1.length := by
      simp only [pairs, Finset.mem_filter, Finset.mem_product, Finset.mem_range]
      omega
    have := h (i, j) hp
    simp only at this
    tauto
  · intro h p hp
    simp only [pairs, Finset.mem_filter, Finset.mem_product, Finset.mem_range] at hp
    have := h p.1 p.2 hp.2 hp.1.2
    tauto

/-- Two instances of C16: `[1,1,2]` and `[5,5,9]` induce the same partition and
have Rand Index 1; `[1,1,2]` and `[1,2,2]` do not, and have not. -/
theorem rand_index_one_iff_witness :
    rand_index [1, 1, 2] [5, 5, 9] = .ok (.finite 1) ∧
      rand_index [1, 1, 2] [1, 2, 2] ≠ .ok (.finite 1) := by
  constructor
  · refine (rand_index_one_iff [1, 1, 2] [5, 5, 9] (by decide) (by decide)).2 ?_
    intro i j hij hj
    have hj3 : j < 3 := hj
    interval_cases j <;> interval_cases i <;> simp
  · intro h
    have h2 := (rand_index_one_iff [1, 1, 2] [1, 2, 2] (by decide) (by decide)).1 h 0 1
      (by decide) (by decide)
    simp at h2

/-- C18: under the precondition that `Delta` has at least `n` rows and `n`
columns, `risk_cpp` returns a value, and every index it uses (`c(i)`, `c(j)`,
`Delta(i,j)` for `i < j < n`) is in bounds; when `c2` is at least as long as
`c1`, `rand_index` returns a value, and every index it uses on `c1`, `c2` and
the `n × n` work matrix is in bounds.  No access fails. -/
theorem accesses_in_bounds (c : Vec) (Delta : Mat) (omega : ℚ) (c1 c2 : Vec)
    (hr : c.length ≤ Delta.n_rows) (hc : c.length ≤ Delta.n_cols)
    (hlen : c1.length ≤ c2.length) :
    (∃ x, risk_cpp c Delta omega = .ok x) ∧
      (∀ i j, i < j → j < c.length →
        (∃ a, c.at i = .ok a) ∧ (∃ b, c.at j = .ok b) ∧ ∃ d, Delta.at i j = .ok d) ∧
      (∃ r, rand_index c1 c2 = .ok r) ∧
      (∀ i j, i < j → j < c1.length →
        (∃ a, c1.at i = .ok a) ∧ (∃ b, c1.at j = .ok b) ∧ (∃ x, c2.at i = .ok x) ∧
        (∃ y, c2.at j = .ok y) ∧
        ∀ v, ∃ M, (Mat.zeros c1.length c1.length).setAt i j v = .ok M) := by
  refine ⟨⟨_, risk_cpp_eq c Delta omega hr hc⟩, fun i j hij hj => ?_,
    ⟨_, rand_index_eq c1 c2 hlen⟩, fun i j hij hj => ?_⟩
  · exact ⟨⟨_, vec_at_of_lt c i (by omega)⟩, ⟨_, vec_at_of_lt c j hj⟩,
      ⟨_, mat_at_of_lt Delta i j (by omega) (by omega)⟩⟩
  · refine ⟨⟨_, vec_at_of_lt c1 i (by omega)⟩, ⟨_, vec_at_of_lt c1 j hj⟩,
      ⟨_, vec_at_of_lt c2 i (by omega)⟩, ⟨_, vec_at_of_lt c2 j (by omega)⟩, fun v => ?_⟩
    have hb : i < (Mat.zeros c1.length c1.length).n_rows ∧
        j < (Mat.zeros c1.length c1.length).n_cols := ⟨by show i < c1.length; omega, hj⟩
    exact ⟨_, by rw [Mat.setAt, if_pos hb]⟩

/-- An instance of C18: three labels with the example `Delta`, and a second
vector longer than the first. -/
theorem accesses_in_bounds_witness :
    (∃ x, risk_cpp [1, 1, 2] exDelta (1 / 2) = .ok x) ∧
      ∃ r, rand_index [1, 1, 2] [1, 2, 2, 7] = .ok r :=
  have h := accesses_in_bounds [1, 1, 2] exDelta (1 / 2) [1, 1, 2] [1, 2, 2, 7]
    (by decide) (by decide) (by decide)
  ⟨h.1, h.2.2.1⟩

theorem agreeing_pairs_congr (c1 c2 d1 d2 : Vec) (hd1 : d1.length = c1.length)
    (h1 : ∀ i j, i < j → j < c1.length → (c1.get? i = c1.get? j ↔ d1.get? i = d1.get? j))
    (h2 : ∀ i j, i < j → j < c1.length → (c2.get? i = c2.get? j ↔ d2.get? i = d2.get? j)) :
    agreeing_pairs c1 c2 = agreeing_pairs d1 d2 := by
  rw [agreeing_pairs, agreeing_pairs, hd1]
  refine Finset.filter_congr (fun p hp => ?_)
  simp only [pairs, Finset.mem_filter, Finset.mem_product, Finset.mem_range] at hp
  rw [ne_eq, ne_eq, ne_eq, ne_eq, h1 p.1 p.2 hp.2 hp.1.2, h2 p.1 p.2 hp.2 hp.1.2]

theorem rand_index_congr (c1 c2 d1 d2 : Vec) (hc : c1.length = c2.length)
    (hd1 : d1.length = c1.length) (hd2 : d2.length = c1.length)
    (h1 : ∀ i j, i < j → j < c1.length → (c1.get? i = c1.get? j ↔ d1.get? i = d1.get? j))
    (h2 : ∀ i j, i < j → j < c1.length → (c2.get? i = c2.get? j ↔ d2.get? i = d2.get? j)) :
    rand_index c1 c2 = rand_index d1 d2 := by
  rw [rand_index_eq c1 c2 (le_of_eq hc), rand_index_eq d1 d2 (by omega),
    agreeing_pairs_congr c1 c2 d1 d2 hd1 h1 h2, hd1]

theorem get?_map_eq_iff (c : Vec) (f : ℚ → ℚ) (hf : Function.Injective f) (i j : Nat) :
    c.get? i = c.get? j ↔ (c.map f).get? i = (c.map f).get? j := by
  rw [List.get?_eq_getElem?, List.get?_eq_getElem?, List.get?_eq_getElem?,
    List.get?_eq_getElem?, List.getElem?_map, List.getElem?_map]
  exact (Option.map_injective hf).eq_iff.symm

/-- C19: `rand_index` depends only on the partitions its arguments induce.  If
`c1`, `c2`, `d1`, `d2` have the same length and, for all `i < j`,
`c1[i] = c1[j]` iff `d1[i] = d1[j]` and `c2[i] = c2[j]` iff `d2[i] = d2[j]`,
then `rand_index c1 c2` and `rand_index d1 d2` have the same outcome; in
particular an injective relabelling of either argument changes nothing. -/
theorem rand_index_partition_invariant (c1 c2 d1 d2 : Vec) (hc : c1.length = c2.length)
    (hd1 : d1.length = c1.length) (hd2 : d2.length = c1.length)
    (h1 : ∀ i j, i < j → j < c1.length → (c1.get? i = c1.get? j ↔ d1.get? i = d1.get? j))
    (h2 : ∀ i j, i < j → j < c1.length → (c2.get? i = c2.get? j ↔ d2.get? i = d2.get? j)) :
    rand_index c1 c2 = rand_index d1 d2 ∧
      ∀ f g : ℚ → ℚ, Function.Injective f → Function.Injective g →
        rand_index (c1.map f) (c2.map g) = rand_index c1 c2 := by
  refine ⟨rand_index_congr c1 c2 d1 d2 hc hd1 hd2 h1 h2, fun f g hf hg => ?_⟩
  exact (rand_index_congr c1 c2 (c1.map f) (c2.map g) hc (List.length_map c1 f)
    (by rw [List.length_map]; exact hc.symm) (fun i j _ _ => get?_map_eq_iff c1 f hf i j)
    (fun i j _ _ => get?_map_eq_iff c2 g hg i j)).symm

/-- An instance of C19: relabelling `[1,1,2]` as `[5,5,9]` and `[1,2,2]` as
`[4,3,3]` leaves the Rand Index unchanged. -/
theorem rand_index_partition_invariant_witness :
    rand_index [1, 1, 2] [1, 2, 2] = rand_index [5, 5, 9] [4, 3, 3] :=
  (rand_index_partition_invariant [1, 1, 2] [1, 2, 2] [5, 5, 9] [4, 3, 3] rfl rfl rfl
    (by
      intro i j hij hj
      have hj3 : j < 3 := hj
      interval_cases j <;> interval_cases i <;> simp)
    (by
      intro i j hij hj
      have hj3 : j < 3 := hj
      interval_cases j <;> interval_cases i <;> simp)).1

/-! ## `risk_cpp` in `double` arithmetic -/

/-- Three checks of `fl` against known `double` results: `0.1 + 0.2` is
`0.30000000000000004` and not the `double` nearest `0.3`; `2^53 + 1` is a tie
and goes to the even `2^53`; `3 * 2^-1075` is a tie between two subnormal
numbers and goes to `2^-1073`. -/
theorem fl_examples :
    fl (fl (1 / 10) + fl (2 / 10)) = 1351079888211149 / 2 ^ 52 ∧
      fl (3 / 10) = 5404319552844595 / 2 ^ 54 ∧
      fl (2 ^ 53 + 1) = 2 ^ 53 ∧ fl (3 / 2 ^ 1075) = 1 / 2 ^ 1073 := by
  refine ⟨by decide!, by decide!, by decide!, by decide!⟩

theorem roundHalfEven_nonneg (q : ℚ) (h : 0 ≤ q) : 0 ≤ roundHalfEven q := by
  have hf : (0 : Int) ≤ ⌊q⌋ := Int.floor_nonneg.mpr h
  unfold roundHalfEven
  simp only
  split_ifs <;> omega

theorem fl_nonneg (q : ℚ) (h : 0 ≤ q) : 0 ≤ fl q := by
  unfold fl
  simp only
  split_ifs with h0 hneg
  · exact le_refl _
  · exact absurd hneg (not_lt.mpr h)
  · have hp : (0 : ℚ) < (2 : ℚ) ^ (max (ilog2 q) (-1022) - 52) := by positivity
    have hr : 0 ≤ roundHalfEven (|q| / (2 : ℚ) ^ (max (ilog2 q) (-1022) - 52)) :=
      roundHalfEven_nonneg _ (div_nonneg (abs_nonneg q) hp.le)
    have hr' : (0 : ℚ) ≤ ((roundHalfEven (|q| / (2 : ℚ) ^ (max (ilog2 q) (-1022) - 52)) : Int) : ℚ) := by
      exact_mod_cast hr
    rw [one_mul]
    exact mul_nonneg hr' hp.le

theorem b2q_nonneg (b : Bool) : 0 ≤ b2q b := by
  unfold b2q
  split_ifs <;> norm_num

theorem risk_step_fl_nonneg (c : Vec) (Delta : Mat) (omega : ℚ) (i j : Nat) (risk : ℚ)
    (hi : i < c.length) (hj : j < c.length) (hr : i < Delta.n_rows) (hc : j < Delta.n_cols)
    (hw : 0 ≤ omega) (hd0 : 0 ≤ Delta.elem i j) (hd1 : Delta.elem i j ≤ 1) (ht : 0 ≤ risk) :
    ∃ t, risk_step_fl c Delta omega i j risk = .ok t ∧ 0 ≤ t := by
  simp only [risk_step_fl, vec_at_of_lt c i hi, vec_at_of_lt c j hj, mat_at_of_lt Delta i j hr hc,
    bind, Except.bind, pure, Except.pure]
  exact ⟨_, rfl, fl_nonneg _ (add_nonneg ht (fl_nonneg _ (add_nonneg
    (fl_nonneg _ (mul_nonneg (b2q_nonneg _) hd0))
    (fl_nonneg _ (mul_nonneg (fl_nonneg _ (mul_nonneg (b2q_nonneg _) hw))
      (fl_nonneg _ (by linarith)))))))⟩

theorem risk_cpp_fl_nonneg (c : Vec) (Delta : Mat) (omega : ℚ)
    (hr : c.length ≤ Delta.n_rows) (hc : c.length ≤ Delta.n_cols) (hw : 0 ≤ omega)
    (hD : ∀ i j, i < j → j < c.length → 0 ≤ Delta.elem i j ∧ Delta.elem i j ≤ 1) :
    ∃ y, risk_cpp_fl c Delta omega = .ok y ∧ 0 ≤ y := by
  have hk : ((c.length : Int) - 1 - ((0 : Nat) : Int)).toNat = c.length - 1 := by omega
  simp only [risk_cpp_fl, forRange, hk]
  refine forLoop_inv _ (fun _ t => 0 ≤ t) (c.length - 1) 0 0 (le_refl _) (fun i _ hi t ht => ?_)
  have hk2 : ((c.length : Int) - ((i + 1 : Nat) : Int)).toNat = c.length - (i + 1) := by omega
  rw [hk2]
  exact forLoop_inv _ (fun _ u => 0 ≤ u) (c.length - (i + 1)) (i + 1) t ht
    (fun j hj1 hj2 u hu => risk_step_fl_nonneg c Delta omega i j u (by omega) (by omega)
      (by omega) (by omega) hw (hD i j (by omega) (by omega)).1 (hD i j (by omega) (by omega)).2 hu)

/-- C17, as the code behaves: if `omega ≥ 0`, `Delta` has at least `n` rows and
`n` columns and every entry `Delta[i,j]` with `i < j < n` lies in `[0, 1]`,
then the value `risk_cpp` accumulates in `double` arithmetic is `≥ 0`, and the
sum of its terms in exact arithmetic lies between 0 and
`max(1, omega) * n * (n - 1) / 2`.  Nothing is said of the upper bound for the
value accumulated in `double` arithmetic. -/
theorem risk_cpp_bounds (c : Vec) (Delta : Mat) (omega : ℚ)
    (hr : c.length ≤ Delta.n_rows) (hc : c.length ≤ Delta.n_cols) (hw : 0 ≤ omega)
    (hD : ∀ i j, i < j → j < c.length → 0 ≤ Delta.elem i j ∧ Delta.elem i j ≤ 1) :
    (∃ y, risk_cpp_fl c Delta omega = .ok y ∧ 0 ≤ y) ∧
      ∃ x, risk_cpp c Delta omega = .ok x ∧ 0 ≤ x ∧
        x ≤ max 1 omega * ((c.length : ℚ) * ((c.length : ℚ) - 1) / 2) :=
  ⟨risk_cpp_fl_nonneg c Delta omega hr hc hw hD,
    pairwise_risk c Delta omega, risk_cpp_eq c Delta omega hr hc,
    pairwise_risk_bounds c Delta omega hw hD⟩

/-- An instance of the amended C17 at the labels `[1,1,2]`, the example `Delta`
and `omega = 1/2`. -/
theorem risk_cpp_bounds_witness :
    (∃ y, risk_cpp_fl [1, 1, 2] exDelta (1 / 2) = .ok y ∧ 0 ≤ y) ∧
      ∃ x, risk_cpp [1, 1, 2] exDelta (1 / 2) = .ok x ∧ 0 ≤ x ∧
        x ≤ max 1 (1 / 2) * (((3 : Nat) : ℚ) * (((3 : Nat) : ℚ) - 1) / 2) :=
  risk_cpp_bounds [1, 1, 2] exDelta (1 / 2) (by decide) (by decide) (by norm_num)
    (fun i j hij hj => by
      have hj3 : j < 3 := hj
      interval_cases j <;> interval_cases i <;> simp [exDelta, Mat.ofRows] <;> norm_num)

/-- C17 fails as stated: with four distinct labels, `Delta = 0` and `omega` the
`double` nearest to `2.3`, the hypotheses hold and the six terms are all
`omega`, yet the value accumulated in `double` arithmetic is `13.8`, one unit
in the last place above `max(1, omega) * 4 * 3 / 2 = 6 * omega`; that bound is
itself a `double`, so rounding it changes nothing. -/
theorem risk_cpp_bounds_counterexample :
    0 ≤ exOmega ∧ fl exOmega = exOmega ∧
      (∀ i j, 0 ≤ (Mat.zeros 4 4).elem i j ∧ (Mat.zeros 4 4).elem i j ≤ 1) ∧
      fl (max 1 exOmega * ((4 : ℚ) * (4 - 1) / 2)) = max 1 exOmega * ((4 : ℚ) * (4 - 1) / 2) ∧
      ∃ y, risk_cpp_fl [1, 2, 3, 4] (Mat.zeros 4 4) exOmega = .ok y ∧
        max 1 exOmega * ((4 : ℚ) * (4 - 1) / 2) < y := by
  refine ⟨by decide!, by decide!, fun i j => ⟨le_refl _, zero_le_one⟩, by decide!,
    3884354678607053 / 2 ^ 48, ?_, by decide!⟩
  have h : (risk_cpp_fl [1, 2, 3, 4] (Mat.zeros 4 4) exOmega).toOption
      = some (3884354678607053 / 2 ^ 48) := by decide!
  cases hx : risk_cpp_fl [1, 2, 3, 4] (Mat.zeros 4 4) exOmega with
  | error e =>
    rw [hx] at h
    cases h
  | ok y =>
    rw [hx] at h
    exact congrArg Except.ok (Option.some.inj h)

end FoldCluster
